import Mathlib

/-!
Verification of the radix-tree library (package `radix`): a compressed
prefix tree over strings supporting insertion (`InsertWord`), exact search
(`Search`), prefix autocomplete (`GetSuggestions`), batched autocomplete
(`GetSuggestionsForSlice`) and full iteration (`Iter`).

Strings are embedded as `List Char` (Go strings compared byte/character
exact).  Go's pointer-mutating tree is embedded as a purely functional
tree: every mutation of a node reached through `findMatchedNodeMeta`
becomes rebuilding the tree along the matcher's descent path, with the
mutated node substituted at the point where the matcher stopped.
-/

namespace Radix

/-- A Go string, viewed as its list of characters. -/
abbrev Word := List Char

/-- Characters of a Lean string literal, for concrete test inputs. -/
def str (s : String) : Word := s.data

/-- Node of the radix tree (source struct `Node`): `Label` is the fragment
this node contributes, `pfx` embeds the `Prefix` cache field, `children`
the ordered child list, and the two flags mirror `IsWordBoundary` and
`IsRootNode`. -/
inductive Node where
  | mk (label : Word) (pfx : Word) (children : List Node)
       (isWordBoundary : Bool) (isRootNode : Bool)

/-- Field `Label` of a node. -/
def Node.label : Node → Word
  | .mk l _ _ _ _ => l

/-- Field `Prefix` of a node (named `pfx` in the embedding). -/
def Node.pfx : Node → Word
  | .mk _ p _ _ _ => p

/-- Field `Children` of a node. -/
def Node.children : Node → List Node
  | .mk _ _ cs _ _ => cs

/-- Field `IsWordBoundary` of a node. -/
def Node.isWordBoundary : Node → Bool
  | .mk _ _ _ b _ => b

/-- Field `IsRootNode` of a node. -/
def Node.isRootNode : Node → Bool
  | .mk _ _ _ _ r => r

/-- `InitNode` initializes an empty Node: empty prefix, no children, both
flags false. -/
def InitNode (label : Word) : Node := .mk label [] [] false false

/-- `IsWord` checks if a Node marks the end of a word. -/
def Node.IsWord (n : Node) : Bool := n.isWordBoundary

/-- `IsRoot` checks if a node is the root node of the Tree. -/
def Node.IsRoot (n : Node) : Bool := n.isRootNode

/-- `IsLeaf` checks if a node has any children. -/
def Node.IsLeaf (n : Node) : Bool := n.children.isEmpty

/-- The Tree holds the root node. -/
structure Tree where
  Root : Node

/-- `InitTree` creates a new Tree: `InitNode "*"` with `IsRootNode = true`. -/
def InitTree : Tree := { Root := .mk (str "*") [] [] false true }

/-- The "runner" loop inside `findMatchedNodeMeta` (source lines 59-63):
`matchedIdx` advances while both strings agree character by character.
`commonRun q l` is the final value of `matchedIdx`; the loop body ran at
least once (`matchNotFound = false`) iff `commonRun q l ≠ 0`. -/
def commonRun : Word → Word → Nat
  | a :: q, b :: l => if a = b then commonRun q l + 1 else 0
  | _, _ => 0

mutual
/-- `findMatchedNodeMeta` (source lines 54-80): walk the children of
`currentNode` looking for the first child sharing a leading run with
`query`; recurse through fully-matched labels; return the matched node,
the matched index (`-1` when no child matched), the rest of the query at
that recursion level, and the prefix accumulated so far. -/
def findMatchedNodeMeta (query pfx : Word) : Node → Node × Int × Word × Word
  | .mk l p cs b r =>
    match findMatchedChild query pfx cs with
    | some res => res
    | none => (.mk l p cs b r, -1, query, pfx)

/-- The `for _, childNode := range currentNode.Children` loop of
`findMatchedNodeMeta`: skip children with no common leading run
(`matchNotFound`), recurse into a child whose whole label matched, stop at
a child whose label matched only partly.  `none` when no child matched. -/
def findMatchedChild (query pfx : Word) : List Node → Option (Node × Int × Word × Word)
  | [] => none
  | childNode :: rest =>
    let matchedIdx := commonRun query childNode.label
    if matchedIdx = 0 then
      findMatchedChild query pfx rest
    else if matchedIdx = childNode.label.length then
      some (findMatchedNodeMeta (query.drop matchedIdx) (pfx ++ query.take matchedIdx) childNode)
    else
      some (childNode, (matchedIdx : Int), query, pfx)
end

/-- `Search` (source lines 134-137): the query is found iff the rest of
the query is empty and the matched node is a word boundary. -/
def Tree.Search (t : Tree) (query : Word) : Bool :=
  match findMatchedNodeMeta query [] t.Root with
  | (matchedNode, _, restQuery, _) => restQuery.length = 0 && matchedNode.IsWord

/-- The mutation `InsertWord` performs on the matched node in the
partial-prefix-match case (source lines 105-130): shrink the matched
node's label and `Prefix` to the matched fragment `restWord[:matchedIdx]`,
clear its word-boundary flag, move its old label tail, word-boundary flag
and children to a new `restLabelNode` child (whose `Prefix` is set to the
old label), and, when the unmatched tail of the inserted word is
non-empty, append a second child carrying that tail marked as a word
boundary. -/
def splitNode (matchedNode : Node) (restWord : Word) (matchedIdx : Nat) : Node :=
  let cachedIsWord := matchedNode.IsWord
  let cachedLabel := matchedNode.label
  let restLabelNode : Node :=
    .mk (cachedLabel.drop matchedIdx) cachedLabel matchedNode.children cachedIsWord false
  if restWord.drop matchedIdx ≠ [] then
    .mk (restWord.take matchedIdx) (restWord.take matchedIdx)
      [restLabelNode, .mk (restWord.drop matchedIdx) [] [] true false]
      false matchedNode.isRootNode
  else
    .mk (restWord.take matchedIdx) (restWord.take matchedIdx)
      [restLabelNode] false matchedNode.isRootNode

mutual
/-- `InsertWord`'s effect on the subtree rooted at a node.  The source
first runs `findMatchedNodeMeta` and then mutates the returned node in
place through its pointer; the embedding fuses the two: the walk of
`findMatchedNodeMeta` is replayed (same child scan, same descent through
fully-matched labels, same `query`/`pfx` threading) and the tree is
rebuilt along that path with `InsertWord`'s mutation applied where the
walk stops.  At the stop node (`matchedIdx = -1` case, source lines
89-99): if the rest of the word is empty the tree is returned unchanged
("this word is already in the tree"), otherwise the node's `Prefix` is set
to the accumulated prefix and a new word-boundary child holding the rest
of the word is appended. -/
def insertNode (query pfx : Word) : Node → Node
  | .mk l p cs b r =>
    match insertChildren query pfx cs with
    | some cs' => .mk l p cs' b r
    | none =>
      if query = [] then .mk l p cs b r
      else .mk l pfx (cs ++ [.mk query [] [] true false]) b r

/-- The child scan of the fused insertion: identical control flow to
`findMatchedChild`, but a fully-matched child is replaced by the recursive
insertion into it, and a partly-matched child is replaced by its split
(`splitNode`).  `none` when no child matched, i.e. the `matchedIdx = -1`
case surfaces at the parent. -/
def insertChildren (query pfx : Word) : List Node → Option (List Node)
  | [] => none
  | childNode :: rest =>
    let matchedIdx := commonRun query childNode.label
    if matchedIdx = 0 then
      match insertChildren query pfx rest with
      | some rest' => some (childNode :: rest')
      | none => none
    else if matchedIdx = childNode.label.length then
      some (insertNode (query.drop matchedIdx) (pfx ++ query.take matchedIdx) childNode :: rest)
    else
      some (splitNode childNode query matchedIdx :: rest)
end

/-- `InsertWord` adds a new word to the radix tree. -/
def Tree.InsertWord (t : Tree) (word : Word) : Tree :=
  { Root := insertNode word [] t.Root }

/-- Build a tree by inserting a sequence of words into a fresh tree. -/
def buildTree (ws : List Word) : Tree :=
  ws.foldl (fun t w => t.InsertWord w) InitTree

mutual
/-- The recursive helper `iter` (source lines 234-242), with the channel
sends collected into a list: emit `currentWord` if the node is a word
boundary, then recurse into every child in order, extending the current
word with the child's label. -/
def iterWords (currentWord : Word) : Node → List Word
  | .mk _ _ cs b _ =>
    (if b then [currentWord] else []) ++ iterWordsList currentWord cs

/-- The `for _, child := range node.Children` loop of `iter`. -/
def iterWordsList (currentWord : Word) : List Node → List Word
  | [] => []
  | child :: rest =>
    iterWords (currentWord ++ child.label) child ++ iterWordsList currentWord rest
end

/-- `Iter` (source lines 223-232): the sequence of words stored in the
tree, produced by the depth-first `iter` walk from the root with an empty
current word. -/
def Tree.Iter (t : Tree) : List Word := iterWords [] t.Root

/-- `GetSuggestions` (source lines 141-175): run the matcher; no
suggestions when the match stalled before consuming the query; when the
query ends partway inside the matched node's label, restart the prefix
from the node's cached `Prefix` (or, at a leaf, from the accumulated
prefix plus the node's whole label); then collect the `iter` walk from the
matched node.  The Go `matchedNode == nil` guard is vacuous:
`findMatchedNodeMeta` never returns nil. -/
def Tree.GetSuggestions (t : Tree) (query : Word) : List Word :=
  match findMatchedNodeMeta query [] t.Root with
  | (matchedNode, matchedIdx, restQuery, pfx0) =>
    if matchedIdx < (restQuery.length : Int) ∧ restQuery.length > 0 then
      []
    else
      let pfx :=
        if matchedIdx > 0 ∧ matchedIdx < (matchedNode.label.length : Int)
            ∧ matchedIdx = (restQuery.length : Int) ∧ restQuery.length > 0 then
          if matchedNode.IsLeaf then pfx0 ++ matchedNode.label else matchedNode.pfx
        else pfx0
      iterWords pfx matchedNode

/-- Lexicographic (character-code) order on words: the order
`sort.Strings` uses on Go strings. -/
def lexLe : Word → Word → Bool
  | [], _ => true
  | _ :: _, [] => false
  | a :: as, b :: bs => if a = b then lexLe as bs else decide (a < b)

/-- Sort a list of words lexicographically (`sort.Strings`). -/
def sortWords (l : List Word) : List Word := l.mergeSort lexLe

/-- One step of the `suggestionsMap` accumulation loop of
`GetSuggestionsForSlice` (source lines 196-200): record a match unless it
was already seen.  The Go map is embedded as the list of its keys in
insertion order. -/
def insertUnique (seen : List Word) (x : Word) : List Word :=
  if x ∈ seen then seen else seen ++ [x]

/-- The aggregation half of `GetSuggestionsForSlice` (source lines
190-218), applied to the per-query result lists in the order they arrive
on the channel: deduplicate all matches through the map, then sort. -/
def aggregateSuggestions (resultLists : List (List Word)) : List Word :=
  sortWords (resultLists.flatten.foldl insertUnique [])

/-- `GetSuggestionsForSlice` (source lines 179-219): run `GetSuggestions`
for every query concurrently and aggregate the channel results into a
deduplicated sorted slice.  The receive loop (source lines 193-205)
performs one receive per query and breaks once `queriesLeft` reaches
zero; when `queries` is empty, `queriesLeft` starts at zero but the break
is only reachable after a receive, there are no senders, and the channel
is only closed after the loop, so the function never returns — this
diverging path is embedded as `none`.  On a non-empty query list the
loop receives exactly the per-query result lists, in an unspecified
arrival order; the definition uses the query order as one such arrival
order, and arrival-order independence is proved separately. -/
def Tree.GetSuggestionsForSlice (t : Tree) (queries : List Word) : Option (List Word) :=
  if queries.isEmpty then none
  else some (aggregateSuggestions (queries.map t.GetSuggestions))

/-- The `i`-th child of a node (out-of-range gives a dummy empty node);
used only to state concrete facts about concrete trees. -/
def Node.childD (n : Node) (i : Nat) : Node := n.children.getD i (InitNode [])

/-! Helper lemmas about the matcher's common-run computation. -/

theorem commonRun_nil_left (l : Word) : commonRun [] l = 0 := by
  cases l <;> rfl

theorem commonRun_nil_right (q : Word) : commonRun q [] = 0 := by
  cases q <;> rfl

theorem commonRun_le_left : ∀ q l : Word, commonRun q l ≤ q.length
  | [], l => by simp [commonRun_nil_left]
  | _ :: _, [] => by simp [commonRun_nil_right]
  | a :: q, b :: l => by
    by_cases h : a = b
    · simpa [commonRun, h] using commonRun_le_left q l
    · simp [commonRun, h]

theorem commonRun_le_right : ∀ q l : Word, commonRun q l ≤ l.length
  | [], l => by simp [commonRun_nil_left]
  | _ :: _, [] => by simp [commonRun_nil_right]
  | a :: q, b :: l => by
    by_cases h : a = b
    · simpa [commonRun, h] using commonRun_le_right q l
    · simp [commonRun, h]

theorem commonRun_self : ∀ q : Word, commonRun q q = q.length
  | [] => rfl
  | a :: q => by simp [commonRun, commonRun_self q]

theorem commonRun_take (k : Nat) : ∀ q : Word, commonRun q (q.take k) = min k q.length := by
  induction k with
  | zero => intro q; cases q <;> simp [commonRun_nil_right, commonRun_nil_left]
  | succ k ih =>
    intro q
    cases q with
    | nil => simp [commonRun_nil_left]
    | cons a q => simp [commonRun, ih q, Nat.succ_min_succ]

/-- If the run is non-zero, both words are non-empty and share their head. -/
theorem commonRun_pos_head {q l : Word} (h : commonRun q l ≠ 0) :
    q ≠ [] ∧ l ≠ [] ∧ q.head? = l.head? := by
  match q, l with
  | [], l => exact absurd (commonRun_nil_left l) h
  | _ :: _, [] => exact absurd (commonRun_nil_right _) h
  | a :: q, b :: l =>
    by_cases hab : a = b
    · simp [hab]
    · simp [commonRun, hab] at h

/-- If the run is zero and both words are non-empty, the heads differ. -/
theorem commonRun_zero_head {q l : Word} (h : commonRun q l = 0)
    (hq : q ≠ []) (hl : l ≠ []) : q.head? ≠ l.head? := by
  match q, l with
  | a :: q, b :: l =>
    by_cases hab : a = b
    · simp [commonRun, hab] at h
    · simpa using hab

/-- The characters before the common run agree pairwise: the matched
fragments of the query and of the label are the same word. -/
theorem commonRun_take_eq : ∀ q l : Word, q.take (commonRun q l) = l.take (commonRun q l)
  | [], l => by simp [commonRun_nil_left]
  | _ :: _, [] => by simp [commonRun_nil_right]
  | a :: q, b :: l => by
    by_cases h : a = b
    · simp [commonRun, h, commonRun_take_eq q l]
    · simp [commonRun, h]

/-- Right after the common run, the two words disagree: dropping the run
from both leaves words with no common run. -/
theorem commonRun_drop : ∀ q l : Word,
    commonRun (q.drop (commonRun q l)) (l.drop (commonRun q l)) = 0
  | [], l => by simp [commonRun_nil_left]
  | _ :: _, [] => by simp [commonRun_nil_right, commonRun_nil_left]
  | a :: q, b :: l => by
    by_cases h : a = b
    · simpa [commonRun, h] using commonRun_drop q l
    · simp [commonRun, h]

/-- Structural induction over nodes with the hypothesis available for
every child. -/
theorem node_ind (P : Node → Prop)
    (h : ∀ l p cs b r, (∀ c ∈ cs, P c) → P (.mk l p cs b r)) : ∀ n, P n
  | .mk l p cs b r => h l p cs b r (fun c hc => node_ind P h c)
termination_by n => sizeOf n
decreasing_by
  have := List.sizeOf_lt_of_mem hc
  simp only [Node.mk.sizeOf_spec]
  omega

/-! Insertion does not change the label, the word-boundary flag or the
root flag of the node it is applied to (it only rewrites the prefix cache
and the child list). -/

theorem insertNode_label (query pfx : Word) (n : Node) :
    (insertNode query pfx n).label = n.label := by
  cases n with
  | mk l p cs b r =>
    simp only [insertNode]
    split
    · rfl
    · split <;> rfl

theorem insertNode_isWordBoundary (query pfx : Word) (n : Node) :
    (insertNode query pfx n).isWordBoundary = n.isWordBoundary := by
  cases n with
  | mk l p cs b r =>
    simp only [insertNode]
    split
    · rfl
    · split <;> rfl

theorem insertNode_isRootNode (query pfx : Word) (n : Node) :
    (insertNode query pfx n).isRootNode = n.isRootNode := by
  cases n with
  | mk l p cs b r =>
    simp only [insertNode]
    split
    · rfl
    · split <;> rfl

/-- A failed scan means no child shares a leading character with the query. -/
theorem insertChildren_none (query pfx : Word) :
    ∀ cs : List Node, insertChildren query pfx cs = none →
      ∀ c ∈ cs, commonRun query c.label = 0
  | [], _, _, hc => by simp at hc
  | childNode :: rest, h, c, hc => by
    simp only [insertChildren] at h
    by_cases h0 : commonRun query childNode.label = 0
    · rw [if_pos h0] at h
      rcases List.mem_cons.1 hc with rfl | hc'
      · exact h0
      · cases hrest : insertChildren query pfx rest with
        | none => exact insertChildren_none query pfx rest hrest c hc'
        | some rest' => rw [hrest] at h; exact absurd h (by simp)
    · rw [if_neg h0] at h
      split at h <;> exact absurd h (by simp)

/-! The matcher on the empty query: every child is skipped, so the matcher
stops at the current node with the sentinel index. -/

theorem findMatchedChild_nil (pfx : Word) :
    ∀ cs : List Node, findMatchedChild [] pfx cs = none
  | [] => rfl
  | childNode :: rest => by
    simp [findMatchedChild, commonRun_nil_left, findMatchedChild_nil pfx rest]

theorem findMatchedNodeMeta_nil (pfx : Word) (n : Node) :
    findMatchedNodeMeta [] pfx n = (n, -1, [], pfx) := by
  cases n with
  | mk l p cs b r => simp [findMatchedNodeMeta, findMatchedChild_nil]

/-- On the empty query, `GetSuggestions` collapses to the `iter` walk from
the root: the matcher returns the root with the sentinel index, both
prefix adjustments are skipped, and the traversal starts from the root
with the empty prefix, exactly as `Iter` does. -/
theorem getSuggestions_empty_eq_iter (t : Tree) : t.GetSuggestions [] = t.Iter := by
  unfold Tree.GetSuggestions Tree.Iter
  rw [findMatchedNodeMeta_nil]
  norm_num

/-- C10: on every tree built by a sequence of `InsertWord` calls,
`GetSuggestions` on the empty query returns exactly the word sequence
produced by `Iter`: the matcher consumes nothing and stops at the root
with the sentinel index, and the suggestion traversal is the `iter`
depth-first walk from the root with the empty prefix. -/
theorem getSuggestions_empty_query (ws : List Word) :
    (buildTree ws).GetSuggestions [] = (buildTree ws).Iter :=
  getSuggestions_empty_eq_iter (buildTree ws)

/-- The structural invariant of the radix tree: at every node, all child
labels are non-empty, no two child labels share their first character, and
the same holds recursively in every child. -/
inductive GoodNode : Node → Prop where
  | mk {l p : Word} {cs : List Node} {b r : Bool}
      (hne : ∀ c ∈ cs, c.label ≠ [])
      (hdisj : cs.Pairwise (fun c d => c.label.head? ≠ d.label.head?))
      (hrec : ∀ c ∈ cs, GoodNode c) :
      GoodNode (.mk l p cs b r)

theorem GoodNode.children_facts {n : Node} (h : GoodNode n) :
    (∀ c ∈ n.children, c.label ≠ [])
    ∧ n.children.Pairwise (fun c d => c.label.head? ≠ d.label.head?)
    ∧ (∀ c ∈ n.children, GoodNode c) := by
  cases h with
  | mk hne hdisj hrec => exact ⟨hne, hdisj, hrec⟩

theorem take_head? {q : Word} {k : Nat} (hk : k ≠ 0) : (q.take k).head? = q.head? := by
  cases q with
  | nil => simp
  | cons a q => cases k with
    | zero => exact absurd rfl hk
    | succ k => simp

/-- Splitting a partly-matched child produces a well-formed node whose
label keeps the child's first character and is non-empty. -/
theorem goodNode_splitNode {c : Node} {q : Word} (hc : GoodNode c)
    (hk0 : commonRun q c.label ≠ 0) (hklt : commonRun q c.label < c.label.length) :
    GoodNode (splitNode c q (commonRun q c.label))
    ∧ (splitNode c q (commonRun q c.label)).label.head? = c.label.head?
    ∧ (splitNode c q (commonRun q c.label)).label ≠ [] := by
  obtain ⟨cl, cp, ccs, cb, cr⟩ := c
  obtain ⟨hne, hdisj, hrec⟩ := hc.children_facts
  simp only [Node.label, Node.children] at hne hdisj hrec hk0 hklt ⊢
  obtain ⟨hq, hlab, hheads⟩ := commonRun_pos_head hk0
  have hrln : cl.drop (commonRun q cl) ≠ [] := by
    simpa [List.drop_eq_nil_iff] using Nat.not_le.2 hklt
  have hlabel : (q.take (commonRun q cl)).head? = cl.head? :=
    (take_head? hk0).trans hheads
  have hlabne : q.take (commonRun q cl) ≠ [] := by
    simp [List.take_eq_nil_iff, hq, hk0]
  have hgrln : GoodNode (.mk (cl.drop (commonRun q cl)) cl ccs cb false) :=
    GoodNode.mk hne hdisj hrec
  simp only [splitNode, Node.IsWord, Node.isWordBoundary, Node.label,
    Node.children, Node.isRootNode]
  by_cases htail : q.drop (commonRun q cl) = []
  · rw [if_neg (by simpa using htail)]
    refine ⟨GoodNode.mk ?_ (by simp) ?_, by simpa [Node.label] using hlabel,
      by simpa [Node.label] using hlabne⟩
    · intro x hx
      obtain rfl := List.mem_singleton.1 hx
      simpa [Node.label] using hrln
    · intro x hx
      obtain rfl := List.mem_singleton.1 hx
      exact hgrln
  · rw [if_pos (by simpa using htail)]
    refine ⟨GoodNode.mk ?_ ?_ ?_, by simpa [Node.label] using hlabel,
      by simpa [Node.label] using hlabne⟩
    · intro x hx
      rcases List.mem_cons.1 hx with rfl | hx'
      · simpa [Node.label] using hrln
      · obtain rfl := List.mem_singleton.1 hx'
        simpa [Node.label] using htail
    · refine List.Pairwise.cons ?_ (by simp)
      intro y hy
      obtain rfl := List.mem_singleton.1 hy
      have hmm : commonRun (q.drop (commonRun q cl)) (cl.drop (commonRun q cl)) = 0 :=
        commonRun_drop q cl
      have hneq := commonRun_zero_head hmm htail hrln
      simpa [Node.label] using hneq.symm
    · intro x hx
      rcases List.mem_cons.1 hx with rfl | hx'
      · exact hgrln
      · obtain rfl := List.mem_singleton.1 hx'
        exact GoodNode.mk (by simp) (by simp) (by simp)

/-- A successful scan replaces exactly one child by a child with the same
first label character, and keeps every child's label non-empty and every
child well-formed. -/
theorem insertChildren_some_good (query pfx : Word) :
    ∀ cs cs' : List Node,
      (∀ c ∈ cs, ∀ q p, GoodNode c → GoodNode (insertNode q p c)) →
      (∀ c ∈ cs, c.label ≠ []) →
      (∀ c ∈ cs, GoodNode c) →
      insertChildren query pfx cs = some cs' →
      cs'.map (fun c => c.label.head?) = cs.map (fun c => c.label.head?)
      ∧ (∀ c ∈ cs', c.label ≠ []) ∧ (∀ c ∈ cs', GoodNode c)
  | [], cs', _, _, _, hscan => by simp [insertChildren] at hscan
  | childNode :: rest, cs', hins, hne, hgood, hscan => by
    simp only [insertChildren] at hscan
    by_cases h0 : commonRun query childNode.label = 0
    · rw [if_pos h0] at hscan
      cases hrest : insertChildren query pfx rest with
      | none => rw [hrest] at hscan; exact absurd hscan (by simp)
      | some rest' =>
        rw [hrest] at hscan
        obtain rfl : childNode :: rest' = cs' := by simpa using hscan
        obtain ⟨hmap, hne', hgood'⟩ := insertChildren_some_good query pfx rest rest'
          (fun c hc => hins c (List.mem_cons_of_mem _ hc))
          (fun c hc => hne c (List.mem_cons_of_mem _ hc))
          (fun c hc => hgood c (List.mem_cons_of_mem _ hc)) hrest
        refine ⟨by simp [hmap], ?_, ?_⟩
        · intro c hc
          rcases List.mem_cons.1 hc with rfl | hc'
          · exact hne c (List.mem_cons_self _ _)
          · exact hne' c hc'
        · intro c hc
          rcases List.mem_cons.1 hc with rfl | hc'
          · exact hgood c (List.mem_cons_self _ _)
          · exact hgood' c hc'
    · rw [if_neg h0] at hscan
      by_cases hfull : commonRun query childNode.label = childNode.label.length
      · rw [if_pos hfull] at hscan
        obtain rfl : _ :: rest = cs' := by simpa using hscan
        refine ⟨by simp [insertNode_label], ?_, ?_⟩
        · intro c hc
          rcases List.mem_cons.1 hc with rfl | hc'
          · rw [insertNode_label]; exact hne childNode (List.mem_cons_self _ _)
          · exact hne c (List.mem_cons_of_mem _ hc')
        · intro c hc
          rcases List.mem_cons.1 hc with rfl | hc'
          · exact hins childNode (List.mem_cons_self _ _) _ _
              (hgood childNode (List.mem_cons_self _ _))
          · exact hgood c (List.mem_cons_of_mem _ hc')
      · rw [if_neg hfull] at hscan
        obtain rfl : _ :: rest = cs' := by simpa using hscan
        have hklt : commonRun query childNode.label < childNode.label.length :=
          Nat.lt_of_le_of_ne (commonRun_le_right _ _) hfull
        obtain ⟨hgs, hhead, hlabne⟩ :=
          goodNode_splitNode (hgood childNode (List.mem_cons_self _ _)) h0 hklt
        refine ⟨by simp [hhead], ?_, ?_⟩
        · intro c hc
          rcases List.mem_cons.1 hc with rfl | hc'
          · exact hlabne
          · exact hne c (List.mem_cons_of_mem _ hc')
        · intro c hc
          rcases List.mem_cons.1 hc with rfl | hc'
          · exact hgs
          · exact hgood c (List.mem_cons_of_mem _ hc')

/-- Insertion preserves the structural invariant. -/
theorem goodNode_insertNode (n : Node) :
    ∀ query pfx, GoodNode n → GoodNode (insertNode query pfx n) := by
  induction n using node_ind with
  | h l p cs b r ih =>
    intro query pfx hg
    obtain ⟨hne, hdisj, hrec⟩ := hg.children_facts
    simp only [Node.children] at hne hdisj hrec
    simp only [insertNode]
    split
    · rename_i cs' hscan
      obtain ⟨hmap, hne', hgood'⟩ :=
        insertChildren_some_good query pfx cs cs' ih hne hrec hscan
      refine GoodNode.mk hne' ?_ hgood'
      have h1 : (cs.map fun c => c.label.head?).Pairwise (· ≠ ·) :=
        List.pairwise_map.2 hdisj
      rw [← hmap] at h1
      exact List.pairwise_map.1 h1
    · rename_i hscan
      split
      · exact hg
      · rename_i hq
        have hzero := insertChildren_none query pfx cs hscan
        refine GoodNode.mk ?_ ?_ ?_
        · intro c hc
          rcases List.mem_append.1 hc with hc' | hc'
          · exact hne c hc'
          · simp only [List.mem_singleton] at hc'
            subst hc'
            simpa [Node.label] using hq
        · rw [List.pairwise_append]
          refine ⟨hdisj, by simp, ?_⟩
          intro a ha x hx
          simp only [List.mem_singleton] at hx
          subst hx
          have := commonRun_zero_head (hzero a ha) hq (hne a ha)
          simpa [Node.label] using this.symm
        · intro c hc
          rcases List.mem_append.1 hc with hc' | hc'
          · exact hrec c hc'
          · simp only [List.mem_singleton] at hc'
            subst hc'
            exact GoodNode.mk (by simp) (by simp) (by simp)

/-- C7: after any sequence of `InsertWord` calls starting from a fresh
tree, every node's children all have non-empty labels and no two children
of the same node have labels sharing a common first character (the
invariant holds recursively from the root). -/
theorem sibling_disjointness_invariant (ws : List Word) :
    GoodNode (buildTree ws).Root := by
  have h : ∀ (ws : List Word) (t : Tree), GoodNode t.Root →
      GoodNode ((ws.foldl (fun t w => t.InsertWord w) t).Root) := by
    intro ws
    induction ws with
    | nil => intro t h; exact h
    | cons w ws ih =>
      intro t h
      exact ih _ (goodNode_insertNode _ _ _ h)
  exact h ws InitTree (GoodNode.mk (by simp) (by simp) (by simp))

/-! Idempotence of insertion: re-inserting a word finds it fully matched
and returns the tree unchanged. -/

theorem insertChildren_nil_query (pfx : Word) :
    ∀ cs : List Node, insertChildren [] pfx cs = none
  | [] => rfl
  | childNode :: rest => by
    simp [insertChildren, commonRun_nil_left, insertChildren_nil_query pfx rest]

theorem insertNode_nil_query (pfx : Word) (n : Node) : insertNode [] pfx n = n := by
  cases n with
  | mk l p cs b r => simp [insertNode, insertChildren_nil_query]

theorem splitNode_label (c : Node) (q : Word) (k : Nat) :
    (splitNode c q k).label = q.take k := by
  simp only [splitNode]
  split <;> rfl

/-- Scanning past children with no common run and into a fresh tail. -/
theorem insertChildren_append_of_none (query pfx : Word) :
    ∀ cs ds : List Node, insertChildren query pfx cs = none →
      insertChildren query pfx (cs ++ ds) =
        match insertChildren query pfx ds with
        | some ds' => some (cs ++ ds')
        | none => none
  | [], ds, _ => by cases h : insertChildren query pfx ds <;> simp [h]
  | childNode :: rest, ds, h => by
    rw [List.cons_append]
    simp only [insertChildren] at h ⊢
    by_cases h0 : commonRun query childNode.label = 0
    · rw [if_pos h0] at h ⊢
      cases hrest : insertChildren query pfx rest with
      | none =>
        rw [insertChildren_append_of_none query pfx rest ds hrest]
        cases hds : insertChildren query pfx ds with
        | none => simp [hds]
        | some ds' => simp [hds]
      | some rest' => rw [hrest] at h; exact absurd h (by simp)
    · rw [if_neg h0] at h
      split at h <;> exact absurd h (by simp)

/-- A freshly appended word-boundary leaf is fully matched by the same
query, and re-inserting into it is a no-op. -/
theorem insertChildren_self_leaf (query pfx : Word) (hq : query ≠ []) :
    insertChildren query pfx [Node.mk query [] [] true false]
      = some [Node.mk query [] [] true false] := by
  have hlen : query.length ≠ 0 := fun hz => hq (List.length_eq_zero.1 hz)
  simp [insertChildren, Node.label, commonRun_self, hlen, List.drop_length,
    insertNode_nil_query]

/-- Re-inserting the same word into a node just split by it is a no-op:
the matcher now runs through the shortened label and either exhausts the
query at the split node or fully matches the rest-of-word child. -/
theorem insertNode_splitNode_fix {c : Node} {q : Word} (pfx' : Word)
    (hk0 : commonRun q c.label ≠ 0) (hklt : commonRun q c.label < c.label.length) :
    insertNode (q.drop (commonRun q c.label)) pfx' (splitNode c q (commonRun q c.label))
      = splitNode c q (commonRun q c.label) := by
  by_cases htail : q.drop (commonRun q c.label) = []
  · rw [htail, insertNode_nil_query]
  · obtain ⟨cl, cp, ccs, cb, cr⟩ := c
    simp only [Node.label] at hk0 hklt htail ⊢
    have hmm : commonRun (q.drop (commonRun q cl)) (cl.drop (commonRun q cl)) = 0 :=
      commonRun_drop q cl
    have hlen : (q.drop (commonRun q cl)).length ≠ 0 :=
      fun hz => htail (List.length_eq_zero.1 hz)
    simp only [splitNode, Node.IsWord, Node.isWordBoundary, Node.label,
      Node.children, Node.isRootNode]
    rw [if_pos (by simpa using htail)]
    rw [List.length_drop] at hlen
    have h2 : q.length ≤ commonRun q cl + (q.length - commonRun q cl) := by omega
    simp [insertNode, insertChildren, Node.label, hmm, commonRun_self, hlen,
      List.drop_length, insertNode_nil_query, h2]

/-- If a child scan succeeded, re-scanning the rewritten children with the
same query succeeds and changes nothing. -/
theorem insertChildren_idem (query pfx : Word) :
    ∀ cs cs' : List Node,
      (∀ c ∈ cs, ∀ q p, insertNode q p (insertNode q p c) = insertNode q p c) →
      insertChildren query pfx cs = some cs' →
      insertChildren query pfx cs' = some cs'
  | [], cs', _, hscan => by simp [insertChildren] at hscan
  | childNode :: rest, cs', hidem, hscan => by
    simp only [insertChildren] at hscan
    by_cases h0 : commonRun query childNode.label = 0
    · rw [if_pos h0] at hscan
      cases hrest : insertChildren query pfx rest with
      | none => rw [hrest] at hscan; exact absurd hscan (by simp)
      | some rest' =>
        rw [hrest] at hscan
        obtain rfl : childNode :: rest' = cs' := by simpa using hscan
        simp only [insertChildren]
        rw [if_pos h0, insertChildren_idem query pfx rest rest'
          (fun c hc => hidem c (List.mem_cons_of_mem _ hc)) hrest]
    · rw [if_neg h0] at hscan
      by_cases hfull : commonRun query childNode.label = childNode.label.length
      · rw [if_pos hfull] at hscan
        obtain rfl : _ :: rest = cs' := by simpa using hscan
        simp only [insertChildren, insertNode_label]
        rw [if_neg h0, if_pos hfull,
          hidem childNode (List.mem_cons_self _ _) _ _]
      · rw [if_neg hfull] at hscan
        obtain rfl : _ :: rest = cs' := by simpa using hscan
        have hkle : commonRun query childNode.label ≤ query.length :=
          commonRun_le_left _ _
        have hklt : commonRun query childNode.label < childNode.label.length :=
          Nat.lt_of_le_of_ne (commonRun_le_right _ _) hfull
        have hcr : commonRun query (splitNode childNode query
            (commonRun query childNode.label)).label
            = commonRun query childNode.label := by
          rw [splitNode_label, commonRun_take, Nat.min_eq_left hkle]
        have hslen : (splitNode childNode query
            (commonRun query childNode.label)).label.length
            = commonRun query childNode.label := by
          rw [splitNode_label, List.length_take, Nat.min_eq_left hkle]
        simp only [insertChildren, hcr]
        rw [if_neg h0, if_pos hslen.symm, insertNode_splitNode_fix _ h0 hklt]

/-- Inserting the same word twice into any node yields the same subtree as
inserting it once. -/
theorem insertNode_idem (n : Node) :
    ∀ query pfx, insertNode query pfx (insertNode query pfx n) = insertNode query pfx n := by
  induction n using node_ind with
  | h l p cs b r ih =>
    intro query pfx
    by_cases hq : query = []
    · subst hq; rw [insertNode_nil_query, insertNode_nil_query]
    · cases hscan : insertChildren query pfx cs with
      | some cs' =>
        have h1 : insertNode query pfx (.mk l p cs b r) = .mk l p cs' b r := by
          simp only [insertNode]; rw [hscan]
        rw [h1]
        simp only [insertNode]
        rw [insertChildren_idem query pfx cs cs' ih hscan]
      | none =>
        have h1 : insertNode query pfx (.mk l p cs b r)
            = .mk l pfx (cs ++ [.mk query [] [] true false]) b r := by
          simp only [insertNode]; rw [hscan, if_neg hq]
        rw [h1]
        simp only [insertNode]
        rw [insertChildren_append_of_none query pfx cs _ hscan,
          insertChildren_self_leaf query pfx hq]

/-- C9: insertion is idempotent.  For every tree reachable by a sequence
of `InsertWord` calls (in fact for every tree), inserting a word a second
time leaves the tree itself unchanged, hence `Search` and
`GetSuggestions` answer identically on every query after one insertion
and after two. -/
theorem insertWord_idempotent (ws : List Word) (w query : Word) :
    (((buildTree ws).InsertWord w).InsertWord w).Search query
        = ((buildTree ws).InsertWord w).Search query
    ∧ (((buildTree ws).InsertWord w).InsertWord w).GetSuggestions query
        = ((buildTree ws).InsertWord w).GetSuggestions query := by
  have h : ((buildTree ws).InsertWord w).InsertWord w = (buildTree ws).InsertWord w := by
    show Tree.mk (insertNode w [] (insertNode w [] (buildTree ws).Root)) = _
    rw [insertNode_idem]
    rfl
  rw [h]
  exact ⟨rfl, rfl⟩

/-! Properties of the lexicographic order and of the aggregation of
batched suggestions. -/

theorem lexLe_total : ∀ a b : Word, (lexLe a b || lexLe b a) = true
  | [], b => by cases b <;> simp [lexLe]
  | a :: as, [] => by simp [lexLe]
  | a :: as, b :: bs => by
    by_cases hab : a = b
    · subst hab
      simpa [lexLe] using lexLe_total as bs
    · simp only [lexLe, if_neg hab, if_neg (Ne.symm hab)]
      rcases lt_or_gt_of_ne hab with h | h <;> simp [h]

theorem lexLe_trans : ∀ a b c : Word,
    lexLe a b = true → lexLe b c = true → lexLe a c = true
  | [], _, c, _, _ => by cases c <;> simp [lexLe]
  | a :: as, [], c, hab, _ => by simp [lexLe] at hab
  | a :: as, b :: bs, [], _, hbc => by simp [lexLe] at hbc
  | a :: as, b :: bs, c :: cs, hab, hbc => by
    by_cases h1 : a = b
    · subst h1
      by_cases h2 : a = c
      · subst h2
        simp only [lexLe, if_pos rfl] at hab hbc ⊢
        exact lexLe_trans as bs cs hab hbc
      · simp only [lexLe, if_pos rfl] at hab
        simpa [lexLe, h2] using hbc
    · by_cases h2 : b = c
      · subst h2
        simpa [lexLe, h1] using hab
      · simp only [lexLe, if_neg h1, decide_eq_true_eq] at hab
        simp only [lexLe, if_neg h2, decide_eq_true_eq] at hbc
        have h3 : a ≠ c := fun hac => absurd (hac ▸ hab) (lt_asymm hbc)
        simp only [lexLe, if_neg h3, decide_eq_true_eq]
        exact lt_trans hab hbc

theorem lexLe_antisymm : ∀ a b : Word, lexLe a b = true → lexLe b a = true → a = b
  | [], [], _, _ => rfl
  | [], _ :: _, _, hba => by simp [lexLe] at hba
  | _ :: _, [], hab, _ => by simp [lexLe] at hab
  | a :: as, b :: bs, hab, hba => by
    by_cases h : a = b
    · subst h
      simp only [lexLe, if_pos rfl] at hab hba
      rw [lexLe_antisymm as bs hab hba]
    · simp only [lexLe, if_neg h, decide_eq_true_eq] at hab
      simp only [lexLe, if_neg (Ne.symm h), decide_eq_true_eq] at hba
      exact absurd hab (lt_asymm hba)

/-- Sorting with the lexicographic order maps permutations to the same
sorted list. -/
theorem sortWords_eq_of_perm {l₁ l₂ : List Word} (h : l₁.Perm l₂) :
    sortWords l₁ = sortWords l₂ := by
  haveI : IsAntisymm Word (fun a b => lexLe a b = true) := ⟨lexLe_antisymm⟩
  apply List.eq_of_perm_of_sorted (r := fun a b => lexLe a b = true)
  · exact ((List.mergeSort_perm l₁ lexLe).trans h).trans (List.mergeSort_perm l₂ lexLe).symm
  · exact List.sorted_mergeSort (fun a b c => lexLe_trans a b c) lexLe_total l₁
  · exact List.sorted_mergeSort (fun a b c => lexLe_trans a b c) lexLe_total l₂

/-- Membership in the map-based deduplication loop. -/
theorem mem_foldl_insertUnique : ∀ (l : List Word) (init : List Word) (x : Word),
    (x ∈ l.foldl insertUnique init ↔ x ∈ init ∨ x ∈ l)
  | [], init, x => by simp
  | y :: l, init, x => by
    rw [List.foldl_cons, mem_foldl_insertUnique l _ x]
    unfold insertUnique
    by_cases hy : y ∈ init
    · rw [if_pos hy]
      simp only [List.mem_cons]
      constructor
      · rintro (h | h)
        · exact Or.inl h
        · exact Or.inr (Or.inr h)
      · rintro (h | h | h)
        · exact Or.inl h
        · exact Or.inl (h ▸ hy)
        · exact Or.inr h
    · rw [if_neg hy]
      simp only [List.mem_append, List.mem_singleton, List.mem_cons]
      tauto

/-- The map-based deduplication loop never records a word twice. -/
theorem nodup_foldl_insertUnique : ∀ (l : List Word) (init : List Word),
    init.Nodup → (l.foldl insertUnique init).Nodup
  | [], _, h => h
  | y :: l, init, h => by
    rw [List.foldl_cons]
    apply nodup_foldl_insertUnique l
    unfold insertUnique
    by_cases hy : y ∈ init
    · rwa [if_pos hy]
    · rw [if_neg hy]
      refine List.Nodup.append h (List.nodup_singleton y) ?_
      intro x hx hxy
      rw [List.mem_singleton] at hxy
      subst hxy
      exact hy hx

/-- Aggregating the per-query result lists in any arrival order yields
the lexicographically sorted deduplication of their union. -/
theorem aggregateSuggestions_perm (t : Tree) (queries : List Word)
    (rs : List (List Word)) (hperm : rs.Perm (queries.map t.GetSuggestions)) :
    aggregateSuggestions rs
      = sortWords ((queries.map t.GetSuggestions).flatten.dedup) := by
  unfold aggregateSuggestions
  apply sortWords_eq_of_perm
  have hflat : rs.flatten.Perm (queries.map t.GetSuggestions).flatten :=
    hperm.flatten
  refine (List.perm_ext_iff_of_nodup
    (nodup_foldl_insertUnique _ _ List.nodup_nil) (List.nodup_dedup _)).2 ?_
  intro a
  rw [mem_foldl_insertUnique, List.mem_dedup]
  simpa using hflat.mem_iff

/-- C8: batch aggregation fails on the empty query sequence.  There the
aggregation loop never returns (`queriesLeft` starts at zero, the break
is only reachable after a receive, and the channel is never closed before
the loop), embedded as `none`, while the claim asserts for every finite
Q a value equal to the sorted deduplicated union (for Q = [] the empty
slice).  On every non-empty query sequence the claimed equation does
hold: the result is the lexicographically sorted deduplication of the
union of the per-query `GetSuggestions` results, and it is the same for
every arrival order of the per-query result lists on the channel (any
permutation of them), so it does not depend on the completion order of
the concurrent computations. -/
theorem getSuggestionsForSlice_batch :
    (buildTree [str "a"]).GetSuggestionsForSlice [] = none
    ∧ ∀ (t : Tree) (queries : List Word) (arrival : List (List Word)),
        queries ≠ [] →
        arrival.Perm (queries.map t.GetSuggestions) →
        t.GetSuggestionsForSlice queries
            = some (sortWords ((queries.map t.GetSuggestions).flatten.dedup))
        ∧ t.GetSuggestionsForSlice queries = some (aggregateSuggestions arrival) := by
  refine ⟨rfl, ?_⟩
  intro t queries arrival hq hperm
  cases queries with
  | nil => exact absurd rfl hq
  | cons q qs =>
    have h1 : Tree.GetSuggestionsForSlice t (q :: qs)
        = some (aggregateSuggestions ((q :: qs).map t.GetSuggestions)) := rfl
    constructor
    · rw [h1, aggregateSuggestions_perm t (q :: qs) _ (List.Perm.refl _)]
    · rw [h1, aggregateSuggestions_perm t (q :: qs) _ (List.Perm.refl _),
        aggregateSuggestions_perm t (q :: qs) arrival hperm]

/-- The batch-aggregation theorem applied at a concrete tree, a concrete
non-empty query list and a concrete out-of-order arrival of the per-query
results. -/
theorem getSuggestionsForSlice_batch_witness :
    ([str "a", str "b"] : List Word) ≠ []
    ∧ ([[str "b"], [str "a"]] : List (List Word)).Perm
        ([str "a", str "b"].map (buildTree [str "b", str "a"]).GetSuggestions)
    ∧ (buildTree [str "b", str "a"]).GetSuggestionsForSlice [str "a", str "b"]
        = some (aggregateSuggestions [[str "b"], [str "a"]]) :=
  ⟨by decide, by decide,
    (getSuggestionsForSlice_batch.2 (buildTree [str "b", str "a"])
      [str "a", str "b"] [[str "b"], [str "a"]] (by decide) (by decide)).2⟩

/-- C1: the round-trip claim fails on the code.  Inserting the word set
W = \x7b"tester", "test"\x7d in this order leaves `Search "test" = false`
although "test" ∈ W: the split that should re-mark the shortened "test"
node as a word boundary never restores the flag cleared at source line
110.  A second instance: after inserting W = \x7b"test", "team", "te"\x7d,
the word "te" ends exactly at the existing internal node "te" and
`InsertWord` returns early (source lines 91-93) without marking it, so
`Search "te" = false`. -/
theorem insertWord_roundtrip_counterexample :
    ((buildTree [str "tester", str "test"]).Search (str "tester") = true
      ∧ (buildTree [str "tester", str "test"]).Search (str "test") = false)
    ∧ (buildTree [str "test", str "team", str "te"]).Search (str "te") = false := by
  decide

/-- C2: inserting a word that is a strict prefix of an already-stored word
("test" after "tester") leaves the split node with
`isWordBoundary = false`, contradicting the claim that the split node ends
with its word-boundary flag set to true (the previously stored word
"tester" does remain searchable). -/
theorem prefix_split_boundary_counterexample :
    ((buildTree [str "tester", str "test"]).Root.childD 0).label = str "test"
    ∧ ((buildTree [str "tester", str "test"]).Root.childD 0).isWordBoundary = false
    ∧ (buildTree [str "tester", str "test"]).Search (str "tester") = true := by
  decide

/-- C3: the prefix-cache invariant fails for a split below the root.
After inserting "ab", "abcdx", "abcdy", the split node with label "cd"
(child of the root child "ab") heads a subtree and has its `Prefix` field
set, but the field holds only the local fragment "cd" (source line 109)
while the concatenation of labels from the root down to the node is
"ab" ++ "cd" = "abcd". -/
theorem pfx_cache_counterexample :
    ((buildTree [str "ab", str "abcdx", str "abcdy"]).Root.childD 0).label = str "ab"
    ∧ (((buildTree [str "ab", str "abcdx", str "abcdy"]).Root.childD 0).childD 0).label = str "cd"
    ∧ (((buildTree [str "ab", str "abcdx", str "abcdy"]).Root.childD 0).childD 0).children.length ≠ 0
    ∧ (((buildTree [str "ab", str "abcdx", str "abcdy"]).Root.childD 0).childD 0).pfx = str "cd"
    ∧ str "ab" ++ str "cd" ≠ str "cd" := by
  decide

/-- C4: suggestion soundness fails.  On the tree built from
W = ["ab", "abcdx", "abcdy"], the query "abc" ends partway inside the
label of the split node "cd", so `GetSuggestions` restarts from that
node's cached `Prefix` — which the split left as the local fragment "cd"
(see C3) — and returns ["cdx", "cdy"]: "cdx" neither starts with "abc"
nor is a member of W. -/
theorem getSuggestions_soundness_counterexample :
    (buildTree [str "ab", str "abcdx", str "abcdy"]).GetSuggestions (str "abc")
      = [str "cdx", str "cdy"]
    ∧ ¬ (str "abc" <+: str "cdx")
    ∧ str "cdx" ∉ [str "ab", str "abcdx", str "abcdy"] := by
  decide

/-- C5: suggestion completeness fails.  On the tree built from
W = ["ab", "abcdx", "abcdy"], the non-empty string "abc" is a prefix of
the inserted word "abcdx", yet "abcdx" does not appear in
`GetSuggestions "abc"` (which returns ["cdx", "cdy"], see C4). -/
theorem getSuggestions_completeness_counterexample :
    str "abcdx" ∈ [str "ab", str "abcdx", str "abcdy"]
    ∧ (str "abc" <+: str "abcdx")
    ∧ str "abc" ≠ []
    ∧ str "abcdx" ∉ (buildTree [str "ab", str "abcdx", str "abcdy"]).GetSuggestions (str "abc") := by
  decide

/-- C6: the no-unmerged-chain invariant fails.  After inserting "tester"
then "test", the non-root node with label "test" has
`isWordBoundary = false` and exactly one child ("er"): the split cleared
the flag (source line 110) and the empty unmatched tail of "test" meant no
second child was appended and the flag was never restored. -/
theorem unmerged_chain_counterexample :
    ((buildTree [str "tester", str "test"]).Root.childD 0).isRootNode = false
    ∧ ((buildTree [str "tester", str "test"]).Root.childD 0).isWordBoundary = false
    ∧ ((buildTree [str "tester", str "test"]).Root.childD 0).children.length = 1 := by
  decide

end Radix
